import Mathlib

/-!
# Verification of the openapicmd request-form field model

Shallow embedding of the body-field serializer, collapse-set filtering,
date-segment editing, lookup-path resolution, tree-path translation and
`allOf` schema merging from `src/components/detail/RequestForm.tsx`
(`src/unnamed/part_004`), `src/lib/field-lookups.ts` and
`src/components/detail/JsonTree.tsx`.

JavaScript runtime values are modelled by the inductive `Json` below.
Numbers are modelled on the integer grid (the claims only exercise
integer numerals); decimal, exponent and hexadecimal numeral forms of the
ECMAScript `Number` conversion are outside the model, as are string-keyed
properties on arrays.
-/

namespace Openapicmd

/-- JavaScript/JSON values: `null`, booleans, (integer) numbers, strings,
arrays and objects.  Objects are ordered key/value lists, mirroring the
insertion-ordered string keys of a JS object. -/
inductive Json where
  | null : Json
  | bool (b : Bool) : Json
  | num (n : Int) : Json
  | str (s : String) : Json
  | arr (elems : List Json) : Json
  | obj (entries : List (String × Json)) : Json
  deriving Repr

/-- Property lookup on an ordered entry list (JS `o[k]`; `none` = `undefined`). -/
def entGet (kvs : List (String × Json)) (k : String) : Option Json :=
  match kvs with
  | [] => none
  | (k', v) :: rest => if k' = k then some v else entGet rest k

/-- Property assignment on an ordered entry list (JS `o[k] = v`): an existing
key is updated in place, a new key is appended. -/
def entSet (kvs : List (String × Json)) (k : String) (v : Json) : List (String × Json) :=
  match kvs with
  | [] => [(k, v)]
  | (k', w) :: rest => if k' = k then (k', v) :: rest else (k', w) :: entSet rest k v

/-- Property lookup on a `Json` value: only objects have (modelled) properties. -/
def jsGet (j : Json) (k : String) : Option Json :=
  match j with
  | .obj kvs => entGet kvs k
  | _ => none

/-! ## String utilities (models of the JS string primitives used) -/

/-- `s.split(sep)` on character lists: every separator starts a new (possibly
empty) segment; the empty input yields one empty segment, as in JS. -/
def splitChar (sep : Char) : List Char → List (List Char)
  | [] => [[]]
  | c :: rest =>
    if c = sep then [] :: splitChar sep rest
    else
      match splitChar sep rest with
      | h :: t => (c :: h) :: t
      | [] => [[c]]

/-- `fullKey.split('.')`. -/
def splitDots (s : String) : List String :=
  (splitChar '.' s.toList).map (fun cs => String.mk cs)

/-- `s.startsWith(pre)`. -/
def jsStartsWith (s pre : String) : Bool :=
  pre.toList.isPrefixOf s.toList

/-- `type.replace('?', '')` — the JS string `replace` with a string pattern
removes only the first occurrence. -/
def removeFirstQm : List Char → List Char
  | [] => []
  | c :: rest => if c = '?' then rest else c :: removeFirstQm rest

def baseTypeOf (ty : String) : String := String.mk (removeFirstQm ty.toList)

/-- `s.endsWith('[]')`. -/
def jsEndsWithBrackets (s : String) : Bool :=
  ['[', ']'].isSuffixOf s.toList

/-- `s.trim()` (JS whitespace approximated by `Char.isWhitespace`). -/
def trimWs (cs : List Char) : List Char :=
  ((cs.dropWhile Char.isWhitespace).reverse.dropWhile Char.isWhitespace).reverse

/-! ## Numbers -/

def readDigitsAux : List Char → Nat → Option Nat
  | [], acc => some acc
  | c :: rest, acc =>
    if c.isDigit then readDigitsAux rest (acc * 10 + (c.toNat - 48)) else none

/-- A non-empty all-digit run read as a natural number. -/
def readDigits (cs : List Char) : Option Nat :=
  match cs with
  | [] => none
  | _ => readDigitsAux cs 0

/-- Model of the ECMAScript `Number(string)` conversion restricted to the
integer grid: after trimming, an optional sign followed by decimal digits;
an empty or whitespace-only string converts to `0`; every other form
(decimals, exponents, hex, words) is NaN, modelled as `none`. -/
def jsNumParse (s : String) : Option Int :=
  match trimWs s.toList with
  | [] => some 0
  | '-' :: ds => (readDigits ds).map (fun n => -(n : Int))
  | '+' :: ds => (readDigits ds).map (fun n => (n : Int))
  | ds => (readDigits ds).map (fun n => (n : Int))

def natDigitsAux : Nat → Nat → List Char → List Char
  | 0, _, acc => acc
  | fuel + 1, n, acc =>
    let d := Char.ofNat (48 + n % 10)
    if n < 10 then d :: acc else natDigitsAux fuel (n / 10) (d :: acc)

def natToStr (n : Nat) : String := String.mk (natDigitsAux (n + 1) n [])

/-- Decimal rendering of an integer, as both `JSON.stringify` and `String()`
print an integral JS number. -/
def intToStr (n : Int) : String :=
  if n < 0 then "-" ++ natToStr n.natAbs else natToStr n.toNat

/-! ## JSON printing -/

def escapeChar (c : Char) : List Char :=
  if c = '"' then ['\\', '"'] else if c = '\\' then ['\\', '\\'] else [c]

/-- The JSON string literal for `s` (control-character escapes beyond `\"`
and `\\` are outside the model). -/
def quoteStr (s : String) : String :=
  "\"" ++ String.mk (s.toList.flatMap escapeChar) ++ "\""

mutual

/-- Model of `JSON.stringify` on the `Json` value grammar. -/
def jsonStringify : Json → String
  | .null => "null"
  | .bool true => "true"
  | .bool false => "false"
  | .num n => intToStr n
  | .str s => quoteStr s
  | .arr xs => "[" ++ stringifyItems xs ++ "]"
  | .obj kvs => "\x7b" ++ stringifyEntries kvs ++ "\x7d"

def stringifyItems : List Json → String
  | [] => ""
  | [x] => jsonStringify x
  | x :: y :: rest => jsonStringify x ++ "," ++ stringifyItems (y :: rest)

def stringifyEntries : List (String × Json) → String
  | [] => ""
  | [(k, v)] => quoteStr k ++ ":" ++ jsonStringify v
  | (k, v) :: e :: rest => quoteStr k ++ ":" ++ jsonStringify v ++ "," ++ stringifyEntries (e :: rest)

end

mutual

/-- Model of the ECMAScript `String(v)` conversion (arrays join their
elements with commas, objects print `[object Object]`). -/
def jsToString : Json → String
  | .null => "null"
  | .bool true => "true"
  | .bool false => "false"
  | .num n => intToStr n
  | .str s => s
  | .arr xs => jsJoinComma xs
  | .obj _ => "[object Object]"

/-- `Array.prototype.toString` joins with commas; a `null` element renders
as the empty string. -/
def jsJoinComma : List Json → String
  | [] => ""
  | [.null] => ""
  | [x] => jsToString x
  | .null :: y :: rest => "," ++ jsJoinComma (y :: rest)
  | x :: y :: rest => jsToString x ++ "," ++ jsJoinComma (y :: rest)

end

/-! ## JSON parsing

Model of `JSON.parse`: recursive descent over the character list with a fuel
bound (the input length plus one suffices, as every recursion level consumes
at least one character).  `none` models a thrown `SyntaxError`. -/

def skipWs (cs : List Char) : List Char :=
  cs.dropWhile (fun c => c = ' ' || c = '\t' || c = '\n' || c = '\r')

/-- Body of a JSON string literal up to the closing quote; returns the
decoded content and the remaining input. -/
def parseStringBody : List Char → Option (List Char × List Char)
  | [] => none
  | '"' :: rest => some ([], rest)
  | '\\' :: c :: rest =>
    (parseStringBody rest).map (fun p =>
      ((if c = 'n' then '\n' else if c = 't' then '\t' else c) :: p.1, p.2))
  | c :: rest => (parseStringBody rest).map (fun p => (c :: p.1, p.2))

mutual

def parseJsonVal : Nat → List Char → Option (Json × List Char)
  | 0, _ => none
  | fuel + 1, cs =>
    match skipWs cs with
    | 'n' :: 'u' :: 'l' :: 'l' :: rest => some (.null, rest)
    | 't' :: 'r' :: 'u' :: 'e' :: rest => some (.bool true, rest)
    | 'f' :: 'a' :: 'l' :: 's' :: 'e' :: rest => some (.bool false, rest)
    | '"' :: rest => (parseStringBody rest).map (fun p => (.str (String.mk p.1), p.2))
    | '\x7b' :: rest =>
      (match skipWs rest with
       | '\x7d' :: r => some (.obj [], r)
       | _ => (parseObjRest fuel rest).map (fun p => (.obj p.1, p.2)))
    | '[' :: rest =>
      (match skipWs rest with
       | ']' :: r => some (.arr [], r)
       | _ => (parseArrRest fuel rest).map (fun p => (.arr p.1, p.2)))
    | '-' :: rest =>
      (readDigits (rest.takeWhile Char.isDigit)).map
        (fun n => (.num (-(n : Int)), rest.dropWhile Char.isDigit))
    | cs' =>
      (readDigits (cs'.takeWhile Char.isDigit)).map
        (fun n => (.num (n : Int), cs'.dropWhile Char.isDigit))

def parseArrRest : Nat → List Char → Option (List Json × List Char)
  | 0, _ => none
  | fuel + 1, cs =>
    match parseJsonVal fuel cs with
    | none => none
    | some (v, r) =>
      match skipWs r with
      | ',' :: r' => (parseArrRest fuel r').map (fun p => (v :: p.1, p.2))
      | ']' :: r' => some ([v], r')
      | _ => none

def parseObjRest : Nat → List Char → Option (List (String × Json) × List Char)
  | 0, _ => none
  | fuel + 1, cs =>
    match skipWs cs with
    | '"' :: r =>
      (match parseStringBody r with
       | none => none
       | some (k, r') =>
         match skipWs r' with
         | ':' :: r2 =>
           (match parseJsonVal fuel r2 with
            | none => none
            | some (v, r3) =>
              match skipWs r3 with
              | ',' :: r4 => (parseObjRest fuel r4).map (fun p => ((String.mk k, v) :: p.1, p.2))
              | '\x7d' :: r4 => some ([(String.mk k, v)], r4)
              | _ => none)
         | _ => none)
    | _ => none

end

/-- `JSON.parse(s)`: the whole input must be one value plus trailing
whitespace. -/
def jsonParse (s : String) : Option Json :=
  match parseJsonVal (s.toList.length + 1) s.toList with
  | some (j, rest) => if skipWs rest = [] then some j else none
  | none => none

/-! ## Body field model (`RequestForm.tsx`) -/

/-- `BodyFieldDef` from RequestForm.tsx. -/
structure BodyFieldDef where
  label : String
  fullKey : String
  type : String
  required : Bool
  description : Option String := none
  indent : Nat := 0
  isGroupHeader : Bool
  nullable : Bool := false
  enumValues : Option (List String) := none
  format : Option String := none
  exampleVal : Option Json := none
  deriving Repr

/-- Lookup in a flat JS string map (`values[k]`; keys are unique in a JS
object, modelled by first-match lookup). -/
def svGet (m : List (String × String)) (k : String) : Option String :=
  match m with
  | [] => none
  | (k', v) :: rest => if k' = k then some v else svGet rest k

/-- Assignment in a flat JS string map (`m[k] = v`). -/
def svSet (m : List (String × String)) (k : String) (v : String) : List (String × String) :=
  match m with
  | [] => [(k, v)]
  | (k', w) :: rest => if k' = k then (k', v) :: rest else (k', w) :: svSet rest k v

/-- `coerceValue` from RequestForm.tsx: raw field string → typed JS value
(`none` models `undefined`, i.e. "omit from output").  Total: every fallible
step falls back rather than throwing. -/
def coerceValue (raw : String) (type : String) : Option Json :=
  if raw = "" then none
  else if raw = "null" then some .null
  else
    let baseType := baseTypeOf type
    if baseType = "number" ∨ baseType = "integer" then
      match jsNumParse raw with
      | some n => some (.num n)
      | none => some (.str raw)
    else if baseType = "boolean" then some (.bool (raw = "true"))
    else if jsEndsWithBrackets type ∨ type = "object" ∨ type = "any" then
      match jsonParse raw with
      | some j => some j
      | none => some (.str raw)
    else some (.str raw)

/-- `setNested` from RequestForm.tsx over already-split path parts.  The JS
walk replaces any non-object (`typeof cur[k] !== 'object' || cur[k] === null`)
intermediate with a fresh object; arrays (typeof `'object'` in JS) carrying
string-keyed properties are outside the model and are likewise replaced. -/
def setNestedParts (parts : List String) (kvs : List (String × Json)) (value : Json) :
    List (String × Json) :=
  match parts with
  | [] => kvs
  | [k] => entSet kvs k value
  | k :: rest =>
    let sub :=
      match entGet kvs k with
      | some (.obj skvs) => skvs
      | _ => []
    entSet kvs k (.obj (setNestedParts rest sub value))

def setNested (kvs : List (String × Json)) (path : String) (value : Json) :
    List (String × Json) :=
  setNestedParts (splitDots path) kvs value

/-- `getNestedValue` from RequestForm.tsx over already-split path parts
(numeric indexing into arrays is outside the model). -/
def getNestedParts (parts : List String) (j : Json) : Option Json :=
  match parts with
  | [] => some j
  | p :: rest =>
    match j with
    | .obj kvs =>
      match entGet kvs p with
      | some v => getNestedParts rest v
      | none => none
    | _ => none

def getNestedValue (kvs : List (String × Json)) (path : String) : Option Json :=
  getNestedParts (splitDots path) (.obj kvs)

/-- `isChildOfCollapsed` from RequestForm.tsx (the JS `Set` is modelled by a
list; only membership matters). -/
def isChildOfCollapsed (fullKey : String) (collapsedGroups : List String) : Bool :=
  collapsedGroups.any (fun g => jsStartsWith fullKey (g ++ "."))

/-- The body of the `serializeBodyFields` loop: group headers and children
of collapsed groups are skipped, every other field's coerced value (when not
absent) is written at its dot-path. -/
def serializeStep (values : List (String × String)) (collapsedGroups : List String)
    (result : List (String × Json)) (f : BodyFieldDef) : List (String × Json) :=
  if f.isGroupHeader then result
  else if isChildOfCollapsed f.fullKey collapsedGroups then result
  else
    match coerceValue ((svGet values f.fullKey).getD "") f.type with
    | none => result
    | some v => setNestedParts (splitDots f.fullKey) result v

/-- The nested object built by `serializeBodyFields` before it is handed to
`JSON.stringify`. -/
def serializeObj (fields : List BodyFieldDef) (values : List (String × String))
    (collapsedGroups : List String) : List (String × Json) :=
  fields.foldl (serializeStep values collapsedGroups) []

/-- `serializeBodyFields` from RequestForm.tsx: the serialized body string;
`''` when no field produced a value. -/
def serializeBodyFields (fields : List BodyFieldDef) (values : List (String × String))
    (collapsedGroups : List String) : String :=
  let result := serializeObj fields values collapsedGroups
  if result.length > 0 then jsonStringify (.obj result) else ""

/-- The body of the `deserializeBodyFields` loop: group headers and
`undefined`/`null` reads are skipped, a string comes back verbatim, any
other value is re-stringified. -/
def deserializeStep (json : List (String × Json)) (result : List (String × String))
    (f : BodyFieldDef) : List (String × String) :=
  if f.isGroupHeader then result
  else
    match getNestedValue json f.fullKey with
    | none => result
    | some .null => result
    | some (.str s) => svSet result f.fullKey s
    | some v => svSet result f.fullKey (jsonStringify v)

/-- `deserializeBodyFields` from RequestForm.tsx: nested JSON object → flat
field values; `undefined` and `null` results are skipped. -/
def deserializeBodyFields (fields : List BodyFieldDef) (json : List (String × Json)) :
    List (String × String) :=
  fields.foldl (deserializeStep json) []

/-- The navigable field sequence (the `fields` memo of RequestForm):
base fields, then body descriptors filtered by the collapse set (group
headers tagged `body-group:`), terminated by the synthetic submit target. -/
def navFields (pathParams queryParams : List String) (defs : List BodyFieldDef)
    (collapsed : List String) : List String :=
  ["baseUrl"] ++ pathParams.map (fun p => "path:" ++ p)
    ++ queryParams.map (fun p => "query:" ++ p) ++ ["headers"]
    ++ defs.filterMap (fun f =>
        if isChildOfCollapsed f.fullKey collapsed then none
        else some ((if f.isGroupHeader then "body-group:" else "body:") ++ f.fullKey))
    ++ ["__submit__"]

/-! ## Date/date-time segment editing (`RequestForm.tsx`) -/

inductive DtSeg where
  | year | month | day | hour | min | sec
  deriving DecidableEq, Repr

/-- The parsed segment record handled by `parseDt`/`formatDt`/`clampDt`. -/
structure DtRec where
  year : Int
  month : Int
  day : Int
  hour : Int
  min : Int
  sec : Int
  deriving DecidableEq, Repr

def DtRec.get (d : DtRec) : DtSeg → Int
  | .year => d.year
  | .month => d.month
  | .day => d.day
  | .hour => d.hour
  | .min => d.min
  | .sec => d.sec

def DtRec.set (d : DtRec) : DtSeg → Int → DtRec
  | .year, v => { d with year := v }
  | .month, v => { d with month := v }
  | .day, v => { d with day := v }
  | .hour, v => { d with hour := v }
  | .min, v => { d with min := v }
  | .sec, v => { d with sec := v }

def isLeapYear (y : Int) : Bool :=
  (y % 4 == 0 && y % 100 != 0) || y % 400 == 0

/-- Day count of human month `m` of year `y`, as computed by
`new Date(year, month, 0).getDate()` (out-of-range months normalized the JS
way; the legacy two-digit-year offset of the `Date` constructor is outside the
model). -/
def daysInMonth (y m : Int) : Int :=
  let t := 12 * y + (m - 1)
  let y' := t.fdiv 12
  let m' := t.fmod 12 + 1
  if m' = 2 then (if isLeapYear y' then 29 else 28)
  else if m' = 4 ∨ m' = 6 ∨ m' = 9 ∨ m' = 11 then 30
  else 31

/-- `clampDt` from RequestForm.tsx. -/
def clampDt (seg : DtSeg) (val : Int) (d : DtRec) : Int :=
  let lo : Int :=
    match seg with
    | .year => 1900 | .month => 1 | .day => 1 | .hour => 0 | .min => 0 | .sec => 0
  let hi : Int :=
    match seg with
    | .year => 2100 | .month => 12 | .day => daysInMonth d.year d.month
    | .hour => 23 | .min => 59 | .sec => 59
  max lo (min hi val)

/-- One segment edit as dispatched by the RequestForm date/date-time input
handler: a vertical increment/decrement, or a typed-digit buffer overwrite
(`parseInt(buf, 10)`, a natural number). -/
inductive DtEdit where
  | upDown (seg : DtSeg) (up : Bool)
  | digit (seg : DtSeg) (bufVal : Nat)
  deriving DecidableEq, Repr

def DtEdit.seg : DtEdit → DtSeg
  | .upDown s _ => s
  | .digit s _ => s

/-- `{ ...d, [seg]: clampDt(seg, newVal, d) }` from the up/down and
typed-digit branches of the handler. -/
def applyDtEdit (d : DtRec) : DtEdit → DtRec
  | .upDown seg up => d.set seg (clampDt seg (d.get seg + (if up then 1 else -1)) d)
  | .digit seg n => d.set seg (clampDt seg (n : Int) d)

/-- The value denotes a real calendar date with all segments in their
documented ranges. -/
def InCalendar (d : DtRec) : Prop :=
  1900 ≤ d.year ∧ d.year ≤ 2100 ∧ 1 ≤ d.month ∧ d.month ≤ 12 ∧
  1 ≤ d.day ∧ d.day ≤ daysInMonth d.year d.month ∧
  0 ≤ d.hour ∧ d.hour ≤ 23 ∧ 0 ≤ d.min ∧ d.min ≤ 59 ∧ 0 ≤ d.sec ∧ d.sec ≤ 59

instance (d : DtRec) : Decidable (InCalendar d) := by
  unfold InCalendar; infer_instance

/-! ## Lookup-path resolution (`field-lookups.ts`) -/

/-- The segment name of a lookup-path part: a trailing `[]` is stripped
(`part.slice(0, -2)`). -/
def partKey (part : String) : String :=
  if jsEndsWithBrackets part then String.mk (part.toList.dropLast.dropLast) else part

/-- The contribution of one element of the working list for one path part:
an empty segment name uses the element directly; a missing key or a
non-object element silently contributes nothing (numeric indexing into
arrays is outside the model); a `[]`-suffixed segment expands an
array-valued property per element. -/
def resolveItem (part : String) (item : Json) : List Json :=
  let val? : Option Json :=
    if partKey part = "" then some item
    else
      match item with
      | .obj kvs => entGet kvs (partKey part)
      | _ => none
  match val? with
  | none => []
  | some v =>
    if jsEndsWithBrackets part then (match v with | .arr xs => xs | _ => []) else [v]

/-- One per-segment step of `resolvePathArray`. -/
def resolveStep (current : List Json) (part : String) : List Json :=
  current.flatMap (resolveItem part)

/-- `resolvePathArray` from field-lookups.ts: resolve a dot path against a
response body and return all matches as strings (dropping `null`s). -/
def resolvePathArray (body : Json) (path : String) : List String :=
  let parts := splitDots (String.mk (trimWs path.toList))
  let final := parts.foldl resolveStep [body]
  (final.filter (fun v => match v with | .null => false | _ => true)).map
    (fun v => match v with | .str s => s | v => jsToString v)

/-! ## Tree-path translation (`JsonTree.tsx`) -/

/-- Scanner for the global regex replace `\[\d+\]` → `[]`, left to right;
fuel-driven (the input length suffices, every step consumes a character). -/
def normIdxF : Nat → List Char → List Char
  | 0, cs => cs
  | _ + 1, [] => []
  | fuel + 1, c :: rest =>
    if c = '[' then
      match rest.span Char.isDigit with
      | (_ :: _, ']' :: rest') => '[' :: ']' :: normIdxF fuel rest'
      | _ => '[' :: normIdxF fuel rest
    else c :: normIdxF fuel rest

/-- `p.replace(/\[\d+\]/g, '[]')`. -/
def replaceIdx (s : String) : String :=
  String.mk (normIdxF s.toList.length s.toList)

/-- `treePathToLookupPath` from JsonTree.tsx. -/
def treePathToLookupPath (treePath : String) : String :=
  let p :=
    if treePath = "root" then ""
    else if jsStartsWith treePath "root." then String.mk (treePath.toList.drop 5)
    else if jsStartsWith treePath "root[" then String.mk (treePath.toList.drop 4)
    else treePath
  replaceIdx p

/-! ## `allOf` schema merging (`RequestForm.tsx`) -/

theorem sizeOf_lt_of_entGet {kvs : List (String × Json)} {k : String} {v : Json}
    (h : entGet kvs k = some v) : sizeOf v < sizeOf (Json.obj kvs) := by
  induction kvs with
  | nil => simp [entGet] at h
  | cons kv rest ih =>
    obtain ⟨k', w⟩ := kv
    simp only [entGet] at h
    split at h
    · cases h
      simp
      omega
    · have := ih h
      simp at this ⊢
      omega

theorem sizeOf_lt_of_jsGet {s : Json} {k : String} {v : Json}
    (h : jsGet s k = some v) : sizeOf v < sizeOf s := by
  cases s <;> simp [jsGet] at h
  exact sizeOf_lt_of_entGet h

/-- The property map of a resolved sub-schema as read by the `allOf` reduce:
`...(x['properties'] as object ?? {})` (spreading a primitive contributes no
entries; the character indices of a spread string are outside the model). -/
def propsOf (j : Json) : List (String × Json) :=
  match jsGet j "properties" with
  | some (.obj kvs) => kvs
  | _ => []

/-- The required list of a resolved sub-schema:
`...((x['required'] as string[]) ?? [])` (non-array values contribute
nothing). -/
def requiredOf (j : Json) : List Json :=
  match jsGet j "required" with
  | some (.arr xs) => xs
  | _ => []

/-- Spread-merge `{...a, ...b}` of two entry lists: entries of `b` update in
place or append, so on key collisions the later operand wins. -/
def jsSpread (a b : List (String × Json)) : List (String × Json) :=
  b.foldl (fun acc kv => entSet acc kv.1 kv.2) a

/-- The property map of the accumulator object. -/
def entProps (acc : List (String × Json)) : List (String × Json) :=
  match entGet acc "properties" with
  | some (.obj kvs) => kvs
  | _ => []

/-- The required list of the accumulator object. -/
def entReq (acc : List (String × Json)) : List Json :=
  match entGet acc "required" with
  | some (.arr xs) => xs
  | _ => []

/-- One step of the `allOf` reduce:
`{ ...acc, properties: {...accProps, ...mergedProps}, required: [...accReq, ...mergedReq] }`. -/
def mergeStep (acc : List (String × Json)) (merged : Json) : List (String × Json) :=
  entSet
    (entSet acc "properties" (.obj (jsSpread (entProps acc) (propsOf merged))))
    "required"
    (.arr (entReq acc ++ requiredOf merged))

mutual

/-- `mergeAllOf` from RequestForm.tsx.  A schema without an `allOf` member
(or with a falsy one) is returned unchanged; an array-valued `allOf` is
reduced over the recursively resolved sub-schemas starting from `{}` (a
truthy non-array `allOf`, on which the JS `reduce` would throw, is modelled
as the identity). -/
def mergeAllOf (s : Json) : Json :=
  match h : jsGet s "allOf" with
  | some (.arr subs) => .obj (mergeList [] subs)
  | _ => s
termination_by sizeOf s
decreasing_by
  have h1 : sizeOf (Json.arr subs) < sizeOf s := sizeOf_lt_of_jsGet h
  simp at h1
  omega

/-- The `reduce` loop of `mergeAllOf`. -/
def mergeList (acc : List (String × Json)) : List Json → List (String × Json)
  | [] => acc
  | x :: xs => mergeList (mergeStep acc (mergeAllOf x)) xs
termination_by l => sizeOf l
decreasing_by
  all_goals (simp <;> omega)

end

/-! ## Scenario fixtures

The field descriptors that the field-model builder derives from the schema
`{a: {type:"object", properties:{b:{type:"string"}, c:{type:"integer"}}}}`:
a group header for `a` and two leaf fields `a.b`, `a.c`. -/

def scenarioFields : List BodyFieldDef :=
  [{ label := "a", fullKey := "a", type := "object", required := false, isGroupHeader := true },
   { label := "b", fullKey := "a.b", type := "string", required := false, indent := 1,
     isGroupHeader := false },
   { label := "c", fullKey := "a.c", type := "integer", required := false, indent := 1,
     isGroupHeader := false }]

def scenarioValues : List (String × String) := [("a.b", "x"), ("a.c", "5")]

/-- C4: with stored values `"a.b" = "x"`, `"a.c" = "5"` and an empty collapse
set, serialization produces exactly the nested value `{"a":{"b":"x","c":5}}`,
creating the intermediate container `a` and coercing `"5"` to the number 5. -/
theorem serialize_nested_scenario :
    serializeObj scenarioFields scenarioValues [] =
      [("a", .obj [("b", .str "x"), ("c", .num 5)])] ∧
    serializeBodyFields scenarioFields scenarioValues [] =
      "\x7b\"a\":\x7b\"b\":\"x\",\"c\":5\x7d\x7d" :=
  ⟨rfl, rfl⟩

/-- C3: when the collapse set contains `"a"` (so every non-group descriptor
is under a collapsed group), the serialized object has no keys and the
serializer returns its empty-equivalent `''`. -/
theorem serialize_collapsed_scenario :
    serializeObj scenarioFields scenarioValues ["a"] = ([] : List (String × Json)) ∧
    serializeBodyFields scenarioFields scenarioValues ["a"] = "" :=
  ⟨rfl, rfl⟩

/-! ## C7: lookup-path resolution -/

theorem resolveStep_empty_part (current : List Json) : resolveStep current "" = current := by
  have hb : jsEndsWithBrackets "" = false := by decide
  have hk : partKey "" = "" := by decide
  induction current with
  | nil => rfl
  | cons x xs ih =>
    simp only [resolveStep, List.flatMap_cons] at ih ⊢
    rw [ih]
    simp [resolveItem, hk, hb]

theorem resolveItem_length_le_one {part : String} (h : jsEndsWithBrackets part = false)
    (item : Json) : (resolveItem part item).length ≤ 1 := by
  unfold resolveItem
  split
  · simp [h]
  · split
    · rename_i kvs
      cases entGet kvs (partKey part) <;> simp [h]
    · simp [h]

theorem resolveStep_length_le_one {current : List Json} {part : String}
    (hc : current.length ≤ 1) (h : jsEndsWithBrackets part = false) :
    (resolveStep current part).length ≤ 1 := by
  match current with
  | [] => simp [resolveStep]
  | [x] =>
    simp only [resolveStep, List.flatMap_cons, List.flatMap_nil, List.append_nil]
    exact resolveItem_length_le_one h x
  | x :: y :: rest => simp at hc

theorem foldl_resolveStep_length_le_one (parts : List String) :
    ∀ current : List Json, current.length ≤ 1 →
    (∀ p ∈ parts, jsEndsWithBrackets p = false) →
    (parts.foldl resolveStep current).length ≤ 1 := by
  induction parts with
  | nil => intro current hc _; simpa using hc
  | cons p ps ih =>
    intro current hc hp
    simp only [List.foldl_cons]
    exact ih _ (resolveStep_length_le_one hc (hp p (by simp)))
      (fun q hq => hp q (by simp [hq]))

theorem resolveItem_missing_key {kvs : List (String × Json)} {part : String}
    (hk : partKey part ≠ "") (hm : entGet kvs (partKey part) = none) :
    resolveItem part (.obj kvs) = [] := by
  unfold resolveItem
  simp [hk, hm]

/-- C7: path resolution always yields a list — at most one element when no
segment carries the `[]` suffix; a `[]` segment expands the named array per
element (`"fields[].id"` on `{"fields":[{"id":"7"},{"id":"9"}]}` gives
`["7","9"]`); an empty segment name uses the current element directly; and a
missing key silently drops that branch. -/
theorem resolvePathArray_spec :
    resolvePathArray
        (.obj [("fields", .arr [.obj [("id", .str "7")], .obj [("id", .str "9")]])])
        "fields[].id" = ["7", "9"]
    ∧ (∀ (body : Json) (path : String),
        (∀ part ∈ splitDots (String.mk (trimWs path.toList)), jsEndsWithBrackets part = false) →
        (resolvePathArray body path).length ≤ 1)
    ∧ (∀ current : List Json, resolveStep current "" = current)
    ∧ (∀ (kvs : List (String × Json)) (part : String),
        partKey part ≠ "" → entGet kvs (partKey part) = none →
        resolveStep [Json.obj kvs] part = []) := by
  refine ⟨rfl, ?_, resolveStep_empty_part, ?_⟩
  · intro body path hp
    have h := foldl_resolveStep_length_le_one _ [body] (by simp) hp
    simp only [resolvePathArray, List.length_map]
    exact le_trans (List.length_filter_le _ _) h
  · intro kvs part hk hm
    simp [resolveStep, resolveItem_missing_key hk hm]

/-- C7 witness: the general conjuncts evaluated at concrete inputs. -/
theorem resolvePathArray_spec_witness :
    (resolvePathArray (.obj [("a", .obj [("b", .str "x")])]) "a.b").length ≤ 1
    ∧ resolveStep [.num 3, .str "s"] "" = [.num 3, .str "s"]
    ∧ resolveStep [Json.obj [("a", .num 1)]] "b" = [] := by
  refine ⟨resolvePathArray_spec.2.1 _ _ ?_, resolvePathArray_spec.2.2.1 _,
    resolvePathArray_spec.2.2.2 _ _ ?_ ?_⟩
  · decide
  · decide
  · rfl

/-! ## Nested set/get lemmas -/

theorem entGet_entSet_same (kvs : List (String × Json)) (k : String) (v : Json) :
    entGet (entSet kvs k v) k = some v := by
  induction kvs with
  | nil => simp [entSet, entGet]
  | cons kv rest ih =>
    obtain ⟨k', w⟩ := kv
    by_cases h : k' = k <;> simp [entSet, entGet, h, ih]

theorem entGet_entSet_other (kvs : List (String × Json)) {k k' : String} (v : Json)
    (h : k' ≠ k) : entGet (entSet kvs k v) k' = entGet kvs k' := by
  induction kvs with
  | nil => simp [entSet, entGet, Ne.symm h]
  | cons kv rest ih =>
    obtain ⟨k0, w⟩ := kv
    by_cases h0 : k0 = k
    · subst h0
      simp [entSet, entGet, Ne.symm h]
    · simp [entSet, entGet, h0, ih]

theorem splitChar_ne_nil (sep : Char) (cs : List Char) : splitChar sep cs ≠ [] := by
  cases cs with
  | nil => simp [splitChar]
  | cons c rest =>
    unfold splitChar
    split
    · simp
    · split <;> simp

theorem splitDots_ne_nil (s : String) : splitDots s ≠ [] := by
  unfold splitDots
  simp [splitChar_ne_nil]

/-- Writing a value at a non-empty path and reading the same path back
yields that value, whatever the previous contents. -/
theorem getNested_setNested (parts : List String) (hne : parts ≠ [])
    (kvs : List (String × Json)) (v : Json) :
    getNestedParts parts (.obj (setNestedParts parts kvs v)) = some v := by
  induction parts generalizing kvs with
  | nil => exact absurd rfl hne
  | cons k rest ih =>
    cases rest with
    | nil =>
      simp [setNestedParts, getNestedParts, entGet_entSet_same]
    | cons r rs =>
      show getNestedParts (k :: r :: rs) (.obj (entSet kvs k _)) = some v
      simp only [getNestedParts, entGet_entSet_same]
      exact ih (by simp) _

/-! ## C10: a `"null"`-valued field does not survive a round-trip -/

/-- C10: for any non-group descriptor whose stored string is the literal
`"null"`, serialization emits JSON `null` at the field's dot-path, but
deserialization skips `null` and omits the key, so the field comes back
unset rather than as the string `"null"`. -/
theorem nullString_roundtrip_loss (f : BodyFieldDef) (hf : f.isGroupHeader = false) :
    serializeObj [f] [(f.fullKey, "null")] [] =
      setNestedParts (splitDots f.fullKey) [] .null
    ∧ getNestedValue (serializeObj [f] [(f.fullKey, "null")] []) f.fullKey = some .null
    ∧ deserializeBodyFields [f] (serializeObj [f] [(f.fullKey, "null")] []) = []
    ∧ svGet (deserializeBodyFields [f] (serializeObj [f] [(f.fullKey, "null")] []))
        f.fullKey = none := by
  have hser : serializeObj [f] [(f.fullKey, "null")] [] =
      setNestedParts (splitDots f.fullKey) [] .null := by
    simp [serializeObj, serializeStep, hf, isChildOfCollapsed, svGet, coerceValue]
  have hget : getNestedValue (serializeObj [f] [(f.fullKey, "null")] []) f.fullKey =
      some .null := by
    rw [hser]
    exact getNested_setNested _ (splitDots_ne_nil _) _ _
  have hdes : deserializeBodyFields [f] (serializeObj [f] [(f.fullKey, "null")] []) = [] := by
    simp [deserializeBodyFields, deserializeStep, hf, hget]
  exact ⟨hser, hget, hdes, by rw [hdes]; rfl⟩

/-- C10 witness at a concrete descriptor. -/
theorem nullString_roundtrip_loss_witness :
    deserializeBodyFields
        [{ label := "b", fullKey := "a.b", type := "string", required := false,
           isGroupHeader := false }]
        (serializeObj
          [{ label := "b", fullKey := "a.b", type := "string", required := false,
             isGroupHeader := false }]
          [("a.b", "null")] []) = [] :=
  (nullString_roundtrip_loss _ rfl).2.2.1

/-! ## C5: total, never-throwing coercion -/

/-- C5: coercion is total (a Lean function) and follows the documented case
analysis — empty string is "absent", the literal `"null"` is JSON null,
numeric types parse and fall back to the raw string when unparsable,
booleans are `true` exactly on `"true"`, and array/object/any types attempt
a structured JSON parse with fallback to the raw string. -/
theorem coerceValue_cases :
    (∀ ty : String, coerceValue "" ty = none)
    ∧ (∀ ty : String, coerceValue "null" ty = some .null)
    ∧ (∀ raw ty : String, raw ≠ "" → raw ≠ "null" →
        (baseTypeOf ty = "number" ∨ baseTypeOf ty = "integer") →
        coerceValue raw ty =
          (match jsNumParse raw with
           | some n => some (.num n)
           | none => some (.str raw)))
    ∧ (∀ raw ty : String, raw ≠ "" → raw ≠ "null" →
        ¬(baseTypeOf ty = "number" ∨ baseTypeOf ty = "integer") →
        baseTypeOf ty = "boolean" →
        coerceValue raw ty = some (.bool (raw = "true")))
    ∧ (∀ raw ty : String, raw ≠ "" → raw ≠ "null" →
        ¬(baseTypeOf ty = "number" ∨ baseTypeOf ty = "integer") →
        baseTypeOf ty ≠ "boolean" →
        (jsEndsWithBrackets ty = true ∨ ty = "object" ∨ ty = "any") →
        coerceValue raw ty =
          (match jsonParse raw with
           | some j => some j
           | none => some (.str raw)))
    ∧ (∀ raw ty : String, raw ≠ "" → raw ≠ "null" →
        ¬(baseTypeOf ty = "number" ∨ baseTypeOf ty = "integer") →
        baseTypeOf ty ≠ "boolean" →
        ¬(jsEndsWithBrackets ty = true ∨ ty = "object" ∨ ty = "any") →
        coerceValue raw ty = some (.str raw)) := by
  refine ⟨fun ty => rfl, fun ty => ?_, ?_, ?_, ?_, ?_⟩
  · simp [coerceValue]
  · intro raw ty h1 h2 h3
    simp [coerceValue, h1, h2, h3]
  · intro raw ty h1 h2 h3 h4
    simp [coerceValue, h1, h2, h3, h4]
  · intro raw ty h1 h2 h3 h4 h5
    simp [coerceValue, h1, h2, h3, h4, h5]
  · intro raw ty h1 h2 h3 h4 h5
    simp [coerceValue, h1, h2, h3, h4, h5]

/-- C5 witness: each case at a concrete raw string and type. -/
theorem coerceValue_cases_witness :
    coerceValue "" "integer" = none
    ∧ coerceValue "null" "string" = some .null
    ∧ coerceValue "abc" "number" = some (.str "abc")
    ∧ coerceValue "5" "integer?" = some (.num 5)
    ∧ coerceValue "yes" "boolean" = some (.bool false)
    ∧ coerceValue "[1]" "string[]" = some (.arr [.num 1])
    ∧ coerceValue "x" "string" = some (.str "x") := by
  refine ⟨coerceValue_cases.1 _, coerceValue_cases.2.1 _,
    (coerceValue_cases.2.2.1 "abc" "number" (by decide) (by decide) (Or.inl rfl)).trans rfl,
    (coerceValue_cases.2.2.1 "5" "integer?" (by decide) (by decide) (Or.inr rfl)).trans rfl,
    (coerceValue_cases.2.2.2.1 "yes" "boolean" (by decide) (by decide) (by decide) rfl).trans
      (by rfl),
    (coerceValue_cases.2.2.2.2.1 "[1]" "string[]" (by decide) (by decide) (by decide)
      (by decide) (Or.inl rfl)).trans rfl,
    (coerceValue_cases.2.2.2.2.2 "x" "string" (by decide) (by decide) (by decide) (by decide)
      (by decide)).trans rfl⟩

/-! ## C2: collapsing removes exactly the descendants -/

theorem isChildOfCollapsed_cons (k g : String) (c : List String) :
    isChildOfCollapsed k (g :: c) =
      (jsStartsWith k (g ++ ".") || isChildOfCollapsed k c) := by
  simp [isChildOfCollapsed]

theorem jsStartsWith_self_dot (g : String) : jsStartsWith g (g ++ ".") = false := by
  rw [Bool.eq_false_iff]
  intro h
  have hp := List.isPrefixOf_iff_prefix.mp h
  have := hp.length_le
  rw [String.toList, String.toList, String.data_append] at this
  simp at this

theorem filterMap_collapse_cons (tag : BodyFieldDef → String) (g : String)
    (c : List String) (defs : List BodyFieldDef) :
    defs.filterMap
        (fun f => if isChildOfCollapsed f.fullKey (g :: c) then none else some (tag f))
      = (defs.filter (fun f => !jsStartsWith f.fullKey (g ++ "."))).filterMap
        (fun f => if isChildOfCollapsed f.fullKey c then none else some (tag f)) := by
  induction defs with
  | nil => rfl
  | cons f defs ih =>
    by_cases hs : jsStartsWith f.fullKey (g ++ ".") = true
    · have hc : isChildOfCollapsed f.fullKey (g :: c) = true := by
        rw [isChildOfCollapsed_cons, hs, Bool.true_or]
      simp [List.filterMap_cons, List.filter_cons, hc, hs, ih]
    · rw [Bool.not_eq_true] at hs
      have hc : isChildOfCollapsed f.fullKey (g :: c) = isChildOfCollapsed f.fullKey c := by
        rw [isChildOfCollapsed_cons, hs, Bool.false_or]
      simp [List.filterMap_cons, List.filter_cons, hc, hs, ih]

theorem serializeStep_skip_descendant {f : BodyFieldDef} {g : String} {c : List String}
    (vals : List (String × String)) (acc : List (String × Json))
    (hs : jsStartsWith f.fullKey (g ++ ".") = true) :
    serializeStep vals (g :: c) acc f = acc := by
  unfold serializeStep
  by_cases hg : f.isGroupHeader <;> simp [hg, isChildOfCollapsed_cons, hs]

theorem foldl_serializeStep_collapse_cons (vals : List (String × String)) (g : String)
    (c : List String) :
    ∀ (defs : List BodyFieldDef) (acc : List (String × Json)),
      defs.foldl (serializeStep vals (g :: c)) acc
        = (defs.filter (fun f => !jsStartsWith f.fullKey (g ++ "."))).foldl
            (serializeStep vals c) acc := by
  intro defs
  induction defs with
  | nil => intro acc; rfl
  | cons f defs ih =>
    intro acc
    by_cases hs : jsStartsWith f.fullKey (g ++ ".") = true
    · rw [List.foldl_cons, serializeStep_skip_descendant vals acc hs]
      simp [List.filter_cons, hs, ih]
    · rw [Bool.not_eq_true] at hs
      have hstep : serializeStep vals (g :: c) acc f = serializeStep vals c acc f := by
        unfold serializeStep
        rw [isChildOfCollapsed_cons, hs, Bool.false_or]
      simp [List.filter_cons, hs, List.foldl_cons, hstep, ih]

/-- C2: adding a group key `g` to the collapse set removes exactly the
descriptors whose `fullKey` has `g` as a dot-path ancestor prefix
(`fullKey = g ++ "." ++ rest`) from both the navigable field sequence and
the serialized output; the group header itself is not a descendant of
itself and remains navigable; and erasing `g` from the set restores both. -/
theorem collapse_exact_descendants (pp qp : List String) (defs : List BodyFieldDef)
    (vals : List (String × String)) (c : List String) (g : String) :
    navFields pp qp defs (g :: c)
      = navFields pp qp (defs.filter (fun f => !jsStartsWith f.fullKey (g ++ "."))) c
    ∧ serializeObj defs vals (g :: c)
      = serializeObj (defs.filter (fun f => !jsStartsWith f.fullKey (g ++ "."))) vals c
    ∧ jsStartsWith g (g ++ ".") = false
    ∧ (∀ k : String, jsStartsWith k (g ++ ".") = true ↔ ∃ rest : String, k = g ++ "." ++ rest)
    ∧ (∀ f ∈ defs, f.isGroupHeader = true → f.fullKey = g →
        isChildOfCollapsed f.fullKey (g :: c) = false →
        ("body-group:" ++ g) ∈ navFields pp qp defs (g :: c))
    ∧ navFields pp qp defs ((g :: c).erase g) = navFields pp qp defs c
    ∧ serializeObj defs vals ((g :: c).erase g) = serializeObj defs vals c := by
  refine ⟨?_, ?_, jsStartsWith_self_dot g, ?_, ?_, ?_, ?_⟩
  · unfold navFields
    rw [filterMap_collapse_cons]
  · unfold serializeObj
    exact foldl_serializeStep_collapse_cons vals g c defs []
  · intro k
    constructor
    · intro h
      obtain ⟨t, ht⟩ := List.isPrefixOf_iff_prefix.mp h
      refine ⟨String.mk t, String.ext ?_⟩
      rw [String.data_append, String.data_append]
      rw [String.toList, String.toList] at ht
      rw [← ht, String.data_append]
    · rintro ⟨rest, rfl⟩
      apply List.isPrefixOf_iff_prefix.mpr
      rw [String.toList, String.toList, String.data_append]
      exact List.prefix_append _ _
  · intro f hf hgroup hkey hnc
    unfold navFields
    have hmem : ("body-group:" ++ g) ∈ defs.filterMap
        (fun f => if isChildOfCollapsed f.fullKey (g :: c) then none
          else some ((if f.isGroupHeader then "body-group:" else "body:") ++ f.fullKey)) :=
      List.mem_filterMap.mpr ⟨f, hf, by rw [hnc, hgroup, hkey]; simp⟩
    exact List.mem_append.mpr (Or.inl (List.mem_append.mpr (Or.inr hmem)))
  · rw [List.erase_cons_head]
  · rw [List.erase_cons_head]

/-- C2 witness: collapsing `"a"` on the scenario model hides exactly `a.b`
and `a.c` while the header stays navigable. -/
theorem collapse_exact_descendants_witness :
    ("body-group:a") ∈ navFields [] [] scenarioFields ["a"] :=
  (collapse_exact_descendants [] [] scenarioFields [] [] "a").2.2.2.2.1
    (scenarioFields.get ⟨0, by decide⟩) (by simp [scenarioFields]) rfl rfl rfl

/-! ## C8: tree-path → lookup-path translation -/

theorem natDigitsAux_head_digit (n : Nat) : (Char.ofNat (48 + n % 10)).isDigit = true := by
  have h10 : n % 10 < 10 := Nat.mod_lt _ (by norm_num)
  set k := n % 10 with hk
  interval_cases k <;> decide

theorem natDigitsAux_digits (fuel : Nat) :
    ∀ (n : Nat) (acc : List Char), (∀ c ∈ acc, c.isDigit = true) →
    ∀ c ∈ natDigitsAux fuel n acc, c.isDigit = true := by
  induction fuel with
  | zero => intro n acc hacc c hc; exact hacc c hc
  | succ f ih =>
    intro n acc hacc c hc
    unfold natDigitsAux at hc
    by_cases hn : n < 10
    · simp only [hn, if_true] at hc
      rcases List.mem_cons.mp hc with rfl | hmem
      · exact natDigitsAux_head_digit n
      · exact hacc c hmem
    · simp only [hn, if_false] at hc
      refine ih (n / 10) _ ?_ c hc
      intro c' hc'
      rcases List.mem_cons.mp hc' with rfl | hmem
      · exact natDigitsAux_head_digit n
      · exact hacc c' hmem

theorem natDigitsAux_ne_nil (fuel : Nat) :
    ∀ (n : Nat) (acc : List Char), acc ≠ [] → natDigitsAux fuel n acc ≠ [] := by
  induction fuel with
  | zero => intro n acc hacc; exact hacc
  | succ f ih =>
    intro n acc hacc
    unfold natDigitsAux
    by_cases hn : n < 10
    · simp [hn]
    · simp only [hn, if_false]
      exact ih (n / 10) _ (by simp)

theorem natToStr_digits (n : Nat) : ∀ c ∈ (natToStr n).toList, c.isDigit = true := by
  intro c hc
  exact natDigitsAux_digits (n + 1) n [] (by simp) c hc

theorem natToStr_toList_ne_nil (n : Nat) : (natToStr n).toList ≠ [] := by
  show natDigitsAux (n + 1) n [] ≠ []
  unfold natDigitsAux
  by_cases hn : n < 10
  · simp [hn]
  · simp only [hn, if_false]
    exact natDigitsAux_ne_nil n (n / 10) _ (by simp)

theorem span_digits (ds : List Char) (r : List Char) (hds : ∀ c ∈ ds, c.isDigit = true) :
    (ds ++ ']' :: r).span Char.isDigit = (ds, ']' :: r) := by
  induction ds with
  | nil => simp [List.span_eq_take_drop]
  | cons d ds ih =>
    have hd : d.isDigit = true := hds d (by simp)
    have hrest : ∀ c ∈ ds, c.isDigit = true := fun c hc => hds c (by simp [hc])
    have ih' := ih hrest
    simp only [List.span_eq_take_drop, Prod.mk.injEq] at ih' ⊢
    simp [List.takeWhile_cons, List.dropWhile_cons, hd, ih'.1, ih'.2]

/-- Char-level interleaving of bracket-free runs with `[n]` indices. -/
def chunksStr : List Char → List (Nat × List Char) → List Char
  | a, [] => a
  | a, (n, b) :: rest => a ++ '[' :: ((natToStr n).toList ++ ']' :: chunksStr b rest)

/-- The same interleaving with every index normalized to `[]`. -/
def chunksSq : List Char → List (Nat × List Char) → List Char
  | a, [] => a
  | a, (_, b) :: rest => a ++ '[' :: ']' :: chunksSq b rest

theorem chunksStr_cons (c : Char) (a : List Char) (rest : List (Nat × List Char)) :
    chunksStr (c :: a) rest = c :: chunksStr a rest := by
  cases rest <;> rfl

theorem chunksSq_cons (c : Char) (a : List Char) (rest : List (Nat × List Char)) :
    chunksSq (c :: a) rest = c :: chunksSq a rest := by
  cases rest <;> rfl

theorem normIdxF_chunks (fuel : Nat) :
    ∀ (a : List Char) (rest : List (Nat × List Char)),
    (chunksStr a rest).length ≤ fuel →
    '[' ∉ a → (∀ p ∈ rest, '[' ∉ p.2) →
    normIdxF fuel (chunksStr a rest) = chunksSq a rest := by
  induction fuel with
  | zero =>
    intro a rest hlen ha hrest
    cases a with
    | cons c a' => rw [chunksStr_cons] at hlen; simp at hlen
    | nil =>
      cases rest with
      | nil => rfl
      | cons p rest' =>
        obtain ⟨n, b⟩ := p
        unfold chunksStr at hlen
        simp at hlen
  | succ f ih =>
    intro a rest hlen ha hrest
    cases a with
    | cons c a' =>
      have hc : ¬(c = '[') := fun h => ha (by rw [h]; exact List.mem_cons_self _ _)
      rw [chunksStr_cons, chunksSq_cons]
      show normIdxF (f + 1) (c :: chunksStr a' rest) = c :: chunksSq a' rest
      unfold normIdxF
      rw [if_neg hc]
      congr 1
      refine ih a' rest ?_ (fun h => ha (List.mem_cons_of_mem _ h)) hrest
      rw [chunksStr_cons] at hlen
      simpa using Nat.le_of_succ_le_succ hlen
    | nil =>
      cases rest with
      | nil => rfl
      | cons p rest' =>
        obtain ⟨n, b⟩ := p
        have hdig := natToStr_digits n
        obtain ⟨d, ds, hds⟩ := List.exists_cons_of_ne_nil (natToStr_toList_ne_nil n)
        show normIdxF (f + 1) ('[' :: ((natToStr n).toList ++ ']' :: chunksStr b rest')) =
          '[' :: ']' :: chunksSq b rest'
        unfold normIdxF
        rw [if_pos rfl, span_digits _ _ hdig, hds]
        show ('[' :: ']' :: normIdxF f (chunksStr b rest')) = '[' :: ']' :: chunksSq b rest'
        have hb : '[' ∉ b := hrest (n, b) (by simp)
        have hrest' : ∀ p ∈ rest', '[' ∉ p.2 := fun p hp => hrest p (by simp [hp])
        have hlen' : (chunksStr b rest').length ≤ f := by
          unfold chunksStr at hlen
          rw [hds] at hlen
          simp at hlen
          omega
        rw [ih b rest' hlen' hb hrest']

/-- String-level interleaving `a [n₁] b₁ [n₂] b₂ …`. -/
def strChunks : String → List (Nat × String) → String
  | a, [] => a
  | a, (n, b) :: rest => a ++ "[" ++ natToStr n ++ "]" ++ strChunks b rest

/-- The same with every index replaced by a bare `[]`. -/
def strChunksSq : String → List (Nat × String) → String
  | a, [] => a
  | a, (_, b) :: rest => a ++ "[]" ++ strChunksSq b rest

theorem strChunks_toList (a : String) (rest : List (Nat × String)) :
    (strChunks a rest).toList =
      chunksStr a.toList (rest.map (fun p => (p.1, p.2.toList))) := by
  induction rest generalizing a with
  | nil => rfl
  | cons p rest ih =>
    obtain ⟨n, b⟩ := p
    show (a ++ "[" ++ natToStr n ++ "]" ++ strChunks b rest).data = _
    rw [String.data_append, String.data_append, String.data_append, String.data_append,
      show (strChunks b rest).data = (strChunks b rest).toList from rfl, ih]
    simp [chunksStr]

theorem strChunksSq_toList (a : String) (rest : List (Nat × String)) :
    (strChunksSq a rest).toList =
      chunksSq a.toList (rest.map (fun p => (p.1, p.2.toList))) := by
  induction rest generalizing a with
  | nil => rfl
  | cons p rest ih =>
    obtain ⟨n, b⟩ := p
    show (a ++ "[]" ++ strChunksSq b rest).data = _
    rw [String.data_append, String.data_append,
      show (strChunksSq b rest).data = (strChunksSq b rest).toList from rfl, ih]
    simp [chunksSq]

/-- C8: translation drops the leading `root` segment (both the `root.` and
the `root[` form) and replaces every bracketed numeric index with a bare
`[]`; in particular `root.fields[1].id` becomes `fields[].id`. -/
theorem treePathToLookupPath_spec :
    treePathToLookupPath "root.fields[1].id" = "fields[].id"
    ∧ (∀ s : String, treePathToLookupPath ("root." ++ s) = replaceIdx s)
    ∧ (∀ s : String, treePathToLookupPath ("root[" ++ s) = replaceIdx ("[" ++ s))
    ∧ (∀ (a : String) (rest : List (Nat × String)),
        '[' ∉ a.toList → (∀ p ∈ rest, '[' ∉ (p.2).toList) →
        replaceIdx (strChunks a rest) = strChunksSq a rest) := by
  refine ⟨rfl, ?_, ?_, ?_⟩
  · intro s
    have hne : ¬("root." ++ s = "root") := by
      intro h
      have hlen := congrArg String.length h
      rw [String.length_append] at hlen
      have h5 : ("root." : String).length = 5 := rfl
      have h4 : ("root" : String).length = 4 := rfl
      omega
    have hsw : jsStartsWith ("root." ++ s) "root." = true := by
      apply List.isPrefixOf_iff_prefix.mpr
      rw [String.toList, String.toList, String.data_append]
      exact List.prefix_append _ _
    unfold treePathToLookupPath
    rw [if_neg hne, if_pos hsw]
    congr 1
  · intro s
    have hne : ¬("root[" ++ s = "root") := by
      intro h
      have hlen := congrArg String.length h
      rw [String.length_append] at hlen
      have h5 : ("root[" : String).length = 5 := rfl
      have h4 : ("root" : String).length = 4 := rfl
      omega
    have hsw1 : jsStartsWith ("root[" ++ s) "root." = false := by
      show List.isPrefixOf _ _ = false
      rw [String.toList, String.toList, String.data_append]
      show List.isPrefixOf ['r', 'o', 'o', 't', '.'] (['r', 'o', 'o', 't', '['] ++ s.data) = false
      simp [List.isPrefixOf]
    have hsw2 : jsStartsWith ("root[" ++ s) "root[" = true := by
      apply List.isPrefixOf_iff_prefix.mpr
      rw [String.toList, String.toList, String.data_append]
      exact List.prefix_append _ _
    unfold treePathToLookupPath
    rw [if_neg hne, hsw1, hsw2]
    simp only [Bool.false_eq_true, if_false, if_true]
    congr 1
  · intro a rest ha hrest
    have hchars := normIdxF_chunks (strChunks a rest).toList.length a.toList
      (rest.map (fun p => (p.1, p.2.toList)))
      (by rw [← strChunks_toList])
      ha
      (by
        intro p hp
        obtain ⟨q, hq, hqe⟩ := List.mem_map.mp hp
        rw [← hqe]
        exact hrest q hq)
    unfold replaceIdx
    apply String.ext
    show normIdxF (strChunks a rest).toList.length (strChunks a rest).toList =
      (strChunksSq a rest).data
    rw [strChunks_toList, ← strChunksSq_toList] at hchars
    rw [strChunks_toList]
    exact hchars

/-- C8 witness: the general conjuncts at concrete inputs. -/
theorem treePathToLookupPath_spec_witness :
    treePathToLookupPath ("root." ++ "a[2].b") = replaceIdx "a[2].b"
    ∧ replaceIdx (strChunks "a" [(2, ".b")]) = strChunksSq "a" [(2, ".b")] := by
  refine ⟨treePathToLookupPath_spec.2.1 _, treePathToLookupPath_spec.2.2.2 _ _ ?_ ?_⟩
  · decide
  · decide

/-! ## C9: `allOf` merging -/

theorem entGet_append (l₁ l₂ : List (String × Json)) (k : String) :
    entGet (l₁ ++ l₂) k = (entGet l₁ k).or (entGet l₂ k) := by
  induction l₁ with
  | nil => simp [entGet]
  | cons kv rest ih =>
    obtain ⟨k0, v0⟩ := kv
    by_cases h : k0 = k <;> simp [entGet, h, ih]

theorem entGet_entSet_cases (a : List (String × Json)) (k0 k : String) (v0 : Json) :
    entGet (entSet a k0 v0) k = if k0 = k then some v0 else entGet a k := by
  by_cases h : k0 = k
  · subst h
    simp [entGet_entSet_same]
  · rw [if_neg h, entGet_entSet_other _ _ (fun hh => h hh.symm)]

/-- The last occurrence of a key (the winner of a JS spread). -/
def entGetLast (kvs : List (String × Json)) (k : String) : Option Json :=
  entGet kvs.reverse k

theorem entGetLast_cons (k0 : String) (v0 : Json) (b : List (String × Json)) (k : String) :
    entGetLast ((k0, v0) :: b) k = (entGetLast b k).or (if k0 = k then some v0 else none) := by
  unfold entGetLast
  rw [List.reverse_cons, entGet_append]
  rfl

theorem entGet_jsSpread (b : List (String × Json)) :
    ∀ (a : List (String × Json)) (k : String),
    entGet (jsSpread a b) k = (entGetLast b k).or (entGet a k) := by
  induction b with
  | nil => intro a k; simp [jsSpread, entGetLast, entGet]
  | cons kv b ih =>
    intro a k
    obtain ⟨k0, v0⟩ := kv
    show entGet (jsSpread (entSet a k0 v0) b) k = _
    rw [ih, entGetLast_cons, Option.or_assoc, entGet_entSet_cases]
    congr 1
    by_cases h : k0 = k <;> simp [h]

theorem foldl_or_shift (os : List (Option Json)) :
    ∀ x : Option Json,
    os.foldl (fun a b => b.or a) x = (os.foldl (fun a b => b.or a) none).or x := by
  induction os with
  | nil => intro x; simp
  | cons o os ih =>
    intro x
    simp only [List.foldl_cons]
    rw [ih (o.or x), ih (o.or none)]
    simp [Option.or_assoc]

theorem entGet_foldl_spread (ls : List (List (String × Json))) :
    ∀ (init : List (String × Json)) (k : String),
    entGet (ls.foldl jsSpread init) k =
      ((ls.map (fun ps => entGetLast ps k)).foldl (fun a b => b.or a) none).or
        (entGet init k) := by
  induction ls with
  | nil => intro init k; simp
  | cons b ls ih =>
    intro init k
    simp only [List.foldl_cons, List.map_cons]
    rw [ih, entGet_jsSpread,
      foldl_or_shift (ls.map (fun ps => entGetLast ps k)) ((entGetLast b k).or none)]
    simp [Option.or_assoc]

theorem mergeStep_required (acc : List (String × Json)) (m : Json) :
    entGet (mergeStep acc m) "required" = some (.arr (entReq acc ++ requiredOf m)) :=
  entGet_entSet_same _ _ _

theorem mergeStep_properties (acc : List (String × Json)) (m : Json) :
    entGet (mergeStep acc m) "properties" =
      some (.obj (jsSpread (entProps acc) (propsOf m))) := by
  unfold mergeStep
  rw [entGet_entSet_other _ _ (by decide), entGet_entSet_same]

theorem mergeStep_allOf (acc : List (String × Json)) (m : Json) :
    entGet (mergeStep acc m) "allOf" = entGet acc "allOf" := by
  unfold mergeStep
  rw [entGet_entSet_other _ _ (by decide), entGet_entSet_other _ _ (by decide)]

theorem entReq_mergeStep (acc : List (String × Json)) (m : Json) :
    entReq (mergeStep acc m) = entReq acc ++ requiredOf m := by
  unfold entReq
  rw [mergeStep_required]
  rfl

theorem entProps_mergeStep (acc : List (String × Json)) (m : Json) :
    entProps (mergeStep acc m) = jsSpread (entProps acc) (propsOf m) := by
  unfold entProps
  rw [mergeStep_properties]
  rfl

theorem mergeList_nil (acc : List (String × Json)) : mergeList acc [] = acc := by
  unfold mergeList
  rfl

theorem mergeList_cons (acc : List (String × Json)) (x : Json) (xs : List Json) :
    mergeList acc (x :: xs) = mergeList (mergeStep acc (mergeAllOf x)) xs := by
  conv_lhs => unfold mergeList

theorem mergeList_allOf (l : List Json) :
    ∀ acc : List (String × Json), entGet acc "allOf" = none →
    entGet (mergeList acc l) "allOf" = none := by
  induction l with
  | nil => intro acc h; rw [mergeList_nil]; exact h
  | cons x xs ih =>
    intro acc h
    rw [mergeList_cons]
    exact ih _ (by rw [mergeStep_allOf]; exact h)

theorem mergeList_req (l : List Json) :
    ∀ acc : List (String × Json),
    entReq (mergeList acc l) = entReq acc ++ l.flatMap (fun x => requiredOf (mergeAllOf x)) := by
  induction l with
  | nil => intro acc; rw [mergeList_nil]; simp
  | cons x xs ih =>
    intro acc
    rw [mergeList_cons, ih, entReq_mergeStep]
    simp

theorem mergeList_props (l : List Json) :
    ∀ acc : List (String × Json),
    entProps (mergeList acc l) =
      l.foldl (fun ps x => jsSpread ps (propsOf (mergeAllOf x))) (entProps acc) := by
  induction l with
  | nil => intro acc; rw [mergeList_nil]; rfl
  | cons x xs ih =>
    intro acc
    rw [mergeList_cons, ih, entProps_mergeStep]
    rfl

theorem mergeAllOf_of_none {s : Json} (h : jsGet s "allOf" = none) : mergeAllOf s = s := by
  unfold mergeAllOf
  split
  · rename_i subs heq
    rw [h] at heq
    cases heq
  · rfl

theorem mergeAllOf_arr {s : Json} {subs : List Json}
    (h : jsGet s "allOf" = some (.arr subs)) : mergeAllOf s = .obj (mergeList [] subs) := by
  unfold mergeAllOf
  split
  · rename_i subs' heq
    rw [h] at heq
    cases heq
    rfl
  · rename_i hne
    exact absurd h (hne subs)

theorem mergeAllOf_of_not_arr {s v : Json} (h : jsGet s "allOf" = some v)
    (hv : ∀ xs, v ≠ .arr xs) : mergeAllOf s = s := by
  unfold mergeAllOf
  split
  · rename_i subs heq
    rw [h] at heq
    exact absurd (Option.some.inj heq) (hv subs)
  · rfl

/-- C9: resolving a composed node recursively resolves each sub-schema and
unions their property maps (collisions: declaration order, last wins) and
required lists; a node with no composition marker is returned unchanged, and
resolution is idempotent. -/
theorem mergeAllOf_spec :
    (∀ s : Json, jsGet s "allOf" = none → mergeAllOf s = s)
    ∧ (∀ s : Json, mergeAllOf (mergeAllOf s) = mergeAllOf s)
    ∧ (∀ (s : Json) (subs : List Json), jsGet s "allOf" = some (.arr subs) →
        requiredOf (mergeAllOf s) = subs.flatMap (fun x => requiredOf (mergeAllOf x))
        ∧ (∀ k : String,
            entGet (propsOf (mergeAllOf s)) k =
              (subs.map (fun x => entGetLast (propsOf (mergeAllOf x)) k)).foldl
                (fun a b => b.or a) none)) := by
  refine ⟨fun s h => mergeAllOf_of_none h, ?_, ?_⟩
  · intro s
    cases h : jsGet s "allOf" with
    | none =>
      rw [mergeAllOf_of_none h]
      exact mergeAllOf_of_none h
    | some v =>
      by_cases harr : ∃ xs, v = Json.arr xs
      · obtain ⟨subs, rfl⟩ := harr
        rw [mergeAllOf_arr h]
        have hn : jsGet (Json.obj (mergeList [] subs)) "allOf" = none := by
          show entGet (mergeList [] subs) "allOf" = none
          exact mergeList_allOf subs [] rfl
        exact mergeAllOf_of_none hn
      · have heq := mergeAllOf_of_not_arr h (fun xs hx => harr ⟨xs, hx⟩)
        rw [heq]
        exact heq
  · intro s subs h
    rw [mergeAllOf_arr h]
    constructor
    · show entReq (mergeList [] subs) = _
      rw [mergeList_req]
      rfl
    · intro k
      show entGet (entProps (mergeList [] subs)) k = _
      rw [mergeList_props]
      have hfold : subs.foldl (fun ps x => jsSpread ps (propsOf (mergeAllOf x)))
          (entProps []) = (subs.map (fun x => propsOf (mergeAllOf x))).foldl jsSpread [] := by
        rw [List.foldl_map]
        rfl
      rw [hfold, entGet_foldl_spread, List.map_map]
      simp [entGet]
      rfl

/-- C9 witness: a composed node at concrete inputs (`{allOf: [{properties:
{a: 1}, required: ["a"]}, {properties: {a: 2}}]}` — second `a` wins). -/
theorem mergeAllOf_spec_witness :
    mergeAllOf (.obj []) = .obj []
    ∧ entGet (propsOf (mergeAllOf (.obj [("allOf",
        .arr [.obj [("properties", .obj [("a", .num 1)]), ("required", .arr [.str "a"])],
              .obj [("properties", .obj [("a", .num 2)])]])]))) "a" = some (.num 2) := by
  constructor
  · exact mergeAllOf_spec.1 _ rfl
  · have h := (mergeAllOf_spec.2.2
      (Json.obj [("allOf",
        Json.arr [Json.obj [("properties", Json.obj [("a", Json.num 1)]),
                            ("required", Json.arr [Json.str "a"])],
                  Json.obj [("properties", Json.obj [("a", Json.num 2)])]])])
      [Json.obj [("properties", Json.obj [("a", Json.num 1)]),
                 ("required", Json.arr [Json.str "a"])],
       Json.obj [("properties", Json.obj [("a", Json.num 2)])]] rfl).2 "a"
    rw [h, List.map_cons, List.map_cons, List.map_nil,
      mergeAllOf_of_none (s := Json.obj [("properties", Json.obj [("a", Json.num 1)]),
        ("required", Json.arr [Json.str "a"])]) rfl,
      mergeAllOf_of_none (s := Json.obj [("properties", Json.obj [("a", Json.num 2)])]) rfl]
    rfl

/-! ## C6: date/date-time segment clamping -/

theorem daysInMonth_ge (y m : Int) : 28 ≤ daysInMonth y m := by
  unfold daysInMonth
  simp only []
  split_ifs <;> omega

theorem clampDt_year_bounds (v : Int) (d : DtRec) :
    1900 ≤ clampDt .year v d ∧ clampDt .year v d ≤ 2100 :=
  ⟨le_max_left _ _, max_le (by norm_num) (min_le_left _ _)⟩

theorem clampDt_month_bounds (v : Int) (d : DtRec) :
    1 ≤ clampDt .month v d ∧ clampDt .month v d ≤ 12 :=
  ⟨le_max_left _ _, max_le (by norm_num) (min_le_left _ _)⟩

theorem clampDt_day_bounds (v : Int) (d : DtRec) :
    1 ≤ clampDt .day v d ∧ clampDt .day v d ≤ daysInMonth d.year d.month :=
  ⟨le_max_left _ _, max_le (le_trans (by norm_num) (daysInMonth_ge _ _)) (min_le_left _ _)⟩

theorem clampDt_hour_bounds (v : Int) (d : DtRec) :
    0 ≤ clampDt .hour v d ∧ clampDt .hour v d ≤ 23 :=
  ⟨le_max_left _ _, max_le (by norm_num) (min_le_left _ _)⟩

theorem clampDt_min_bounds (v : Int) (d : DtRec) :
    0 ≤ clampDt .min v d ∧ clampDt .min v d ≤ 59 :=
  ⟨le_max_left _ _, max_le (by norm_num) (min_le_left _ _)⟩

theorem clampDt_sec_bounds (v : Int) (d : DtRec) :
    0 ≤ clampDt .sec v d ∧ clampDt .sec v d ≤ 59 :=
  ⟨le_max_left _ _, max_le (by norm_num) (min_le_left _ _)⟩

/-- Writing a clamped value into a day/hour/min/sec segment keeps the whole
record in calendar (these segments' bounds do not constrain the others). -/
theorem set_clamped_preserves (d : DtRec) (seg : DtSeg) (v : Int) (hd : InCalendar d)
    (hs : seg = .day ∨ seg = .hour ∨ seg = .min ∨ seg = .sec) :
    InCalendar (d.set seg (clampDt seg v d)) := by
  obtain ⟨h1, h2, h3, h4, h5, h6, h7, h8, h9, h10, h11, h12⟩ := hd
  rcases hs with rfl | rfl | rfl | rfl
  · have hb := clampDt_day_bounds v d
    exact ⟨h1, h2, h3, h4, hb.1, hb.2, h7, h8, h9, h10, h11, h12⟩
  · have hb := clampDt_hour_bounds v d
    exact ⟨h1, h2, h3, h4, h5, h6, hb.1, hb.2, h9, h10, h11, h12⟩
  · have hb := clampDt_min_bounds v d
    exact ⟨h1, h2, h3, h4, h5, h6, h7, h8, hb.1, hb.2, h11, h12⟩
  · have hb := clampDt_sec_bounds v d
    exact ⟨h1, h2, h3, h4, h5, h6, h7, h8, h9, h10, hb.1, hb.2⟩

theorem applyDtEdit_preserves (d : DtRec) (e : DtEdit) (hd : InCalendar d)
    (hs : e.seg = .day ∨ e.seg = .hour ∨ e.seg = .min ∨ e.seg = .sec) :
    InCalendar (applyDtEdit d e) := by
  cases e with
  | upDown seg up => exact set_clamped_preserves d seg _ hd hs
  | digit seg n => exact set_clamped_preserves d seg _ hd hs

/-- Any single edit leaves every segment inside its static range, and the
day inside the day count of the pre-edit year/month. -/
theorem applyDtEdit_bounds (d : DtRec) (e : DtEdit) (hd : InCalendar d) :
    1900 ≤ (applyDtEdit d e).year ∧ (applyDtEdit d e).year ≤ 2100
    ∧ 1 ≤ (applyDtEdit d e).month ∧ (applyDtEdit d e).month ≤ 12
    ∧ 1 ≤ (applyDtEdit d e).day ∧ (applyDtEdit d e).day ≤ daysInMonth d.year d.month
    ∧ 0 ≤ (applyDtEdit d e).hour ∧ (applyDtEdit d e).hour ≤ 23
    ∧ 0 ≤ (applyDtEdit d e).min ∧ (applyDtEdit d e).min ≤ 59
    ∧ 0 ≤ (applyDtEdit d e).sec ∧ (applyDtEdit d e).sec ≤ 59 := by
  obtain ⟨h1, h2, h3, h4, h5, h6, h7, h8, h9, h10, h11, h12⟩ := hd
  have hstep : ∀ v : Int, ∀ seg : DtSeg,
      1900 ≤ (d.set seg (clampDt seg v d)).year ∧ (d.set seg (clampDt seg v d)).year ≤ 2100
      ∧ 1 ≤ (d.set seg (clampDt seg v d)).month ∧ (d.set seg (clampDt seg v d)).month ≤ 12
      ∧ 1 ≤ (d.set seg (clampDt seg v d)).day
      ∧ (d.set seg (clampDt seg v d)).day ≤ daysInMonth d.year d.month
      ∧ 0 ≤ (d.set seg (clampDt seg v d)).hour ∧ (d.set seg (clampDt seg v d)).hour ≤ 23
      ∧ 0 ≤ (d.set seg (clampDt seg v d)).min ∧ (d.set seg (clampDt seg v d)).min ≤ 59
      ∧ 0 ≤ (d.set seg (clampDt seg v d)).sec ∧ (d.set seg (clampDt seg v d)).sec ≤ 59 := by
    intro v seg
    cases seg with
    | year =>
      have hb := clampDt_year_bounds v d
      exact ⟨hb.1, hb.2, h3, h4, h5, h6, h7, h8, h9, h10, h11, h12⟩
    | month =>
      have hb := clampDt_month_bounds v d
      exact ⟨h1, h2, hb.1, hb.2, h5, h6, h7, h8, h9, h10, h11, h12⟩
    | day =>
      have hb := clampDt_day_bounds v d
      exact ⟨h1, h2, h3, h4, hb.1, hb.2, h7, h8, h9, h10, h11, h12⟩
    | hour =>
      have hb := clampDt_hour_bounds v d
      exact ⟨h1, h2, h3, h4, h5, h6, hb.1, hb.2, h9, h10, h11, h12⟩
    | min =>
      have hb := clampDt_min_bounds v d
      exact ⟨h1, h2, h3, h4, h5, h6, h7, h8, hb.1, hb.2, h11, h12⟩
    | sec =>
      have hb := clampDt_sec_bounds v d
      exact ⟨h1, h2, h3, h4, h5, h6, h7, h8, h9, h10, hb.1, hb.2⟩
  cases e with
  | upDown seg up => exact hstep _ seg
  | digit seg n => exact hstep _ seg

/-- C6 counterexample: decrementing the month segment at 2021-03-31 produces
2021-02-31, an out-of-calendar date — the handler clamps only the edited
segment and does not re-clamp the day against the new month. -/
theorem dt_month_edit_out_of_calendar :
    InCalendar ⟨2021, 3, 31, 0, 0, 0⟩
    ∧ applyDtEdit ⟨2021, 3, 31, 0, 0, 0⟩ (.upDown .month false) = ⟨2021, 2, 31, 0, 0, 0⟩
    ∧ ¬ InCalendar ⟨2021, 2, 31, 0, 0, 0⟩ := by
  refine ⟨by decide, by decide, by decide⟩

/-- C6 (amended): every edit clamps the edited segment to its bounds (year
1900–2100, month 1–12, day 1 to the pre-edit month's day count, hour 0–23,
minute/second 0–59); an edit sequence touching only day/hour/min/sec
segments never leaves the calendar; and incrementing the day at the last
day of February of a non-leap year clamps in place.  (An edit to the month
or year segment does not re-clamp the day, so it can leave the calendar.) -/
theorem dtEdit_clamped_spec :
    (∀ (d : DtRec) (es : List DtEdit), InCalendar d →
      (∀ e ∈ es, e.seg = .day ∨ e.seg = .hour ∨ e.seg = .min ∨ e.seg = .sec) →
      InCalendar (es.foldl applyDtEdit d))
    ∧ applyDtEdit ⟨2021, 2, 28, 0, 0, 0⟩ (.upDown .day true) = ⟨2021, 2, 28, 0, 0, 0⟩
    ∧ (∀ (d : DtRec) (e : DtEdit), InCalendar d →
        1900 ≤ (applyDtEdit d e).year ∧ (applyDtEdit d e).year ≤ 2100
        ∧ 1 ≤ (applyDtEdit d e).month ∧ (applyDtEdit d e).month ≤ 12
        ∧ 1 ≤ (applyDtEdit d e).day ∧ (applyDtEdit d e).day ≤ daysInMonth d.year d.month
        ∧ 0 ≤ (applyDtEdit d e).hour ∧ (applyDtEdit d e).hour ≤ 23
        ∧ 0 ≤ (applyDtEdit d e).min ∧ (applyDtEdit d e).min ≤ 59
        ∧ 0 ≤ (applyDtEdit d e).sec ∧ (applyDtEdit d e).sec ≤ 59) := by
  refine ⟨?_, by decide, applyDtEdit_bounds⟩
  intro d es
  induction es generalizing d with
  | nil => intro hd _; exact hd
  | cons e es ih =>
    intro hd hs
    simp only [List.foldl_cons]
    exact ih _ (applyDtEdit_preserves d e hd (hs e (by simp)))
      (fun e' he' => hs e' (by simp [he']))

/-- C6 witness: an in-calendar start stays in calendar under day edits. -/
theorem dtEdit_clamped_spec_witness :
    InCalendar ([DtEdit.upDown .day true, DtEdit.digit .sec 99].foldl applyDtEdit
      ⟨2021, 1, 31, 0, 0, 0⟩) :=
  dtEdit_clamped_spec.1 ⟨2021, 1, 31, 0, 0, 0⟩ _ (by decide) (by decide)

/-! ## C1: serialize/deserialize round-trip -/

/-- The deserialize-side conversion of a read value:
`typeof value === 'string' ? value : JSON.stringify(value)`. -/
def render (v : Json) : String :=
  match v with
  | .str s => s
  | v => jsonStringify v

/-- The flat string produced for a key by deserialization: absent when the
read value is `undefined` or `null`. -/
def renderOpt : Option Json → Option String
  | none => none
  | some .null => none
  | some v => some (render v)

/-- A raw string survives coercion exactly (its typed value prints back to
the original string): these are the values the round-trip law reproduces. -/
def flattenable (raw ty : String) : Prop :=
  renderOpt (coerceValue raw ty) = some raw

instance (raw ty : String) : Decidable (flattenable raw ty) := by
  unfold flattenable
  infer_instance

/-- Key incomparability: neither dot-path is a prefix of the other. -/
def incompKeys (a b : String) : Bool :=
  !((splitDots a).isPrefixOf (splitDots b)) && !((splitDots b).isPrefixOf (splitDots a))

def pairwiseIncomp : List String → Bool
  | [] => true
  | k :: ks => ks.all (fun k' => incompKeys k k') && pairwiseIncomp ks

/-- Well-formed descriptor lists: the dot-paths of the non-group fields are
pairwise incomparable (in particular distinct), as produced by the field
model builder (a leaf never sits on an ancestor path of another leaf). -/
def wellFormedFields (fields : List BodyFieldDef) : Bool :=
  pairwiseIncomp ((fields.filter (fun f => !f.isGroupHeader)).map (fun f => f.fullKey))

theorem svGet_svSet_same (m : List (String × String)) (k : String) (v : String) :
    svGet (svSet m k v) k = some v := by
  induction m with
  | nil => simp [svSet, svGet]
  | cons kv rest ih =>
    obtain ⟨k', w⟩ := kv
    by_cases h : k' = k <;> simp [svSet, svGet, h, ih]

theorem svGet_svSet_other (m : List (String × String)) {k k' : String} (v : String)
    (h : k' ≠ k) : svGet (svSet m k v) k' = svGet m k' := by
  induction m with
  | nil => simp [svSet, svGet, Ne.symm h]
  | cons kv rest ih =>
    obtain ⟨k0, w⟩ := kv
    by_cases h0 : k0 = k
    · subst h0
      simp [svSet, svGet, Ne.symm h]
    · simp [svSet, svGet, h0, ih]

theorem getNestedParts_not_obj (p : List String) (hp : p ≠ []) (j : Json)
    (hj : ∀ kvs, j ≠ .obj kvs) : getNestedParts p j = none := by
  cases p with
  | nil => exact absurd rfl hp
  | cons k rest =>
    unfold getNestedParts
    cases j with
    | obj kvs => exact absurd rfl (hj kvs)
    | null => rfl
    | bool b => rfl
    | num n => rfl
    | str s => rfl
    | arr xs => rfl

theorem getNestedParts_nil_obj (p : List String) (hp : p ≠ []) :
    getNestedParts p (.obj []) = none := by
  cases p with
  | nil => exact absurd rfl hp
  | cons k rest => simp [getNestedParts, entGet]

/-- Writing at a path incomparable with `p` does not change the value read
at `p`. -/
theorem getNested_setNested_other (p : List String) :
    ∀ (q : List String) (kvs : List (String × Json)) (v : Json),
    p ≠ [] → q ≠ [] → ¬(p <+: q) → ¬(q <+: p) →
    getNestedParts p (.obj (setNestedParts q kvs v)) = getNestedParts p (.obj kvs) := by
  induction p with
  | nil => intro q kvs v hp; exact absurd rfl hp
  | cons k p' ihp =>
    intro q kvs v _ hq hpq hqp
    cases q with
    | nil => exact absurd rfl hq
    | cons l q' =>
      by_cases hkl : k = l
      · subst hkl
        have hp'q' : ¬(p' <+: q') := fun h => hpq (List.cons_prefix_cons.mpr ⟨rfl, h⟩)
        have hq'p' : ¬(q' <+: p') := fun h => hqp (List.cons_prefix_cons.mpr ⟨rfl, h⟩)
        have hp' : p' ≠ [] := fun h => hp'q' (h ▸ List.nil_prefix)
        have hq' : q' ≠ [] := fun h => hq'p' (h ▸ List.nil_prefix)
        obtain ⟨r, q'', rfl⟩ := List.exists_cons_of_ne_nil hq'
        show getNestedParts (k :: p')
            (.obj (entSet kvs k (.obj (setNestedParts (r :: q'') _ v)))) = _
        simp only [getNestedParts, entGet_entSet_same]
        rw [ihp (r :: q'') _ v hp' (by simp) hp'q' hq'p']
        cases hsub : entGet kvs k with
        | none =>
          rw [getNestedParts_nil_obj p' hp']
        | some j =>
          cases j with
          | obj skvs => rfl
          | null =>
            rw [getNestedParts_nil_obj p' hp']
            exact (getNestedParts_not_obj p' hp' _ (fun kvs h => Json.noConfusion h)).symm
          | bool b =>
            rw [getNestedParts_nil_obj p' hp']
            exact (getNestedParts_not_obj p' hp' _ (fun kvs h => Json.noConfusion h)).symm
          | num n =>
            rw [getNestedParts_nil_obj p' hp']
            exact (getNestedParts_not_obj p' hp' _ (fun kvs h => Json.noConfusion h)).symm
          | str s =>
            rw [getNestedParts_nil_obj p' hp']
            exact (getNestedParts_not_obj p' hp' _ (fun kvs h => Json.noConfusion h)).symm
          | arr xs =>
            rw [getNestedParts_nil_obj p' hp']
            exact (getNestedParts_not_obj p' hp' _ (fun kvs h => Json.noConfusion h)).symm
      · have : getNestedParts (k :: p') (.obj (setNestedParts (l :: q') kvs v)) =
            getNestedParts (k :: p') (.obj kvs) := by
          cases q' with
          | nil =>
            show getNestedParts (k :: p') (.obj (entSet kvs l v)) = _
            simp only [getNestedParts, entGet_entSet_other _ _ hkl]
          | cons r q'' =>
            show getNestedParts (k :: p') (.obj (entSet kvs l _)) = _
            simp only [getNestedParts, entGet_entSet_other _ _ hkl]
        exact this

/-- Serializing fields whose keys are all incomparable with `p` does not
change the value read at `p`. -/
theorem foldl_serializeStep_preserves_get (values : List (String × String))
    (collapsed : List String) (p : List String) (hp : p ≠ []) (fields : List BodyFieldDef)
    (h : ∀ g ∈ fields, g.isGroupHeader = false →
        ¬(splitDots g.fullKey <+: p) ∧ ¬(p <+: splitDots g.fullKey)) :
    ∀ acc, getNestedParts p (.obj (fields.foldl (serializeStep values collapsed) acc)) =
      getNestedParts p (.obj acc) := by
  induction fields with
  | nil => intro acc; rfl
  | cons g rest ih =>
    intro acc
    rw [List.foldl_cons, ih (fun g' hg' => h g' (by simp [hg']))]
    unfold serializeStep
    by_cases hg : g.isGroupHeader
    · simp [hg]
    · rw [Bool.not_eq_true] at hg
      simp only [hg, Bool.false_eq_true, if_false]
      by_cases hc : isChildOfCollapsed g.fullKey collapsed
      · simp [hc]
      · rw [Bool.not_eq_true] at hc
        simp only [hc, Bool.false_eq_true, if_false]
        cases hv : coerceValue ((svGet values g.fullKey).getD "") g.type with
        | none => rfl
        | some v =>
          exact getNested_setNested_other p (splitDots g.fullKey) acc v hp
            (splitDots_ne_nil _) (h g (by simp) hg).2 (h g (by simp) hg).1

/-- Reading back the key of a serialized field yields exactly its coerced
value, provided every other (non-group) field key is dot-path-incomparable
with it. -/
theorem serializeObj_get (values : List (String × String)) (collapsed : List String)
    (l₁ l₂ : List BodyFieldDef) (f : BodyFieldDef)
    (hg : f.isGroupHeader = false) (hc : isChildOfCollapsed f.fullKey collapsed = false)
    (hincomp : ∀ g ∈ l₁ ++ l₂, g.isGroupHeader = false →
        ¬(splitDots g.fullKey <+: splitDots f.fullKey)
        ∧ ¬(splitDots f.fullKey <+: splitDots g.fullKey)) :
    getNestedParts (splitDots f.fullKey) (.obj (serializeObj (l₁ ++ f :: l₂) values collapsed))
      = coerceValue ((svGet values f.fullKey).getD "") f.type := by
  unfold serializeObj
  rw [List.foldl_append, List.foldl_cons]
  rw [foldl_serializeStep_preserves_get values collapsed _ (splitDots_ne_nil _) l₂
    (fun g hgm hgg => hincomp g (by simp [hgm]) hgg) _]
  set acc₁ := List.foldl (serializeStep values collapsed) [] l₁ with hacc₁
  unfold serializeStep
  simp only [hg, hc, Bool.false_eq_true, if_false]
  cases hv : coerceValue ((svGet values f.fullKey).getD "") f.type with
  | some v =>
    exact getNested_setNested _ (splitDots_ne_nil _) _ _
  | none =>
    show getNestedParts (splitDots f.fullKey) (.obj acc₁) = none
    rw [hacc₁, foldl_serializeStep_preserves_get values collapsed _ (splitDots_ne_nil _) l₁
      (fun g hgm hgg => hincomp g (by simp [hgm]) hgg) []]
    exact getNestedParts_nil_obj _ (splitDots_ne_nil _)

theorem deserializeStep_renderOpt (json : List (String × Json))
    (result : List (String × String)) (f : BodyFieldDef) :
    deserializeStep json result f =
      if f.isGroupHeader then result
      else
        match renderOpt (getNestedValue json f.fullKey) with
        | none => result
        | some s => svSet result f.fullKey s := by
  by_cases hg : f.isGroupHeader
  · simp [deserializeStep, hg]
  · rw [Bool.not_eq_true] at hg
    simp only [deserializeStep, hg, Bool.false_eq_true, if_false]
    cases h : getNestedValue json f.fullKey with
    | none => rfl
    | some v => cases v <;> rfl

/-- Once the deserialized map holds the canonical value for a key, further
fields never change it (another field at the same key rewrites the same
value). -/
theorem foldl_deserializeStep_some (json : List (String × Json)) (K s : String)
    (hr : renderOpt (getNestedParts (splitDots K) (.obj json)) = some s) :
    ∀ (l : List BodyFieldDef) (acc : List (String × String)), svGet acc K = some s →
    svGet (l.foldl (deserializeStep json) acc) K = some s := by
  intro l
  induction l with
  | nil => intro acc hacc; exact hacc
  | cons g rest ih =>
    intro acc hacc
    rw [List.foldl_cons, deserializeStep_renderOpt]
    by_cases hg : g.isGroupHeader
    · simp only [hg, if_true]
      exact ih acc hacc
    · rw [Bool.not_eq_true] at hg
      simp only [hg, Bool.false_eq_true, if_false]
      by_cases hk : g.fullKey = K
      · subst hk
        rw [show getNestedValue json g.fullKey =
          getNestedParts (splitDots g.fullKey) (.obj json) from rfl, hr]
        exact ih _ (svGet_svSet_same acc g.fullKey s)
      · cases hv : renderOpt (getNestedValue json g.fullKey) with
        | none => exact ih acc hacc
        | some t =>
          refine ih _ ?_
          rw [svGet_svSet_other _ _ (fun h => hk h.symm)]
          exact hacc

/-- A key whose read value is `undefined` or `null` is never written by any
field. -/
theorem foldl_deserializeStep_none (json : List (String × Json)) (K : String)
    (hr : renderOpt (getNestedParts (splitDots K) (.obj json)) = none) :
    ∀ (l : List BodyFieldDef) (acc : List (String × String)),
    svGet (l.foldl (deserializeStep json) acc) K = svGet acc K := by
  intro l
  induction l with
  | nil => intro acc; rfl
  | cons g rest ih =>
    intro acc
    rw [List.foldl_cons, deserializeStep_renderOpt]
    by_cases hg : g.isGroupHeader
    · simp only [hg, if_true]
      exact ih acc
    · rw [Bool.not_eq_true] at hg
      simp only [hg, Bool.false_eq_true, if_false]
      by_cases hk : g.fullKey = K
      · subst hk
        rw [show getNestedValue json g.fullKey =
          getNestedParts (splitDots g.fullKey) (.obj json) from rfl, hr]
        exact ih acc
      · cases hv : renderOpt (getNestedValue json g.fullKey) with
        | none => exact ih acc
        | some t =>
          rw [ih _, svGet_svSet_other _ _ (fun h => hk h.symm)]

/-- The deserialized map at the key of any present non-group field is the
rendering of the nested read at that key. -/
theorem deserialize_lookup (json : List (String × Json)) (fields : List BodyFieldDef)
    (f : BodyFieldDef) (hf : f ∈ fields) (hg : f.isGroupHeader = false) :
    svGet (deserializeBodyFields fields json) f.fullKey
      = renderOpt (getNestedParts (splitDots f.fullKey) (.obj json)) := by
  cases hr : renderOpt (getNestedParts (splitDots f.fullKey) (.obj json)) with
  | none =>
    unfold deserializeBodyFields
    rw [foldl_deserializeStep_none json _ hr fields []]
    rfl
  | some s =>
    obtain ⟨l₁, l₂, rfl⟩ := List.append_of_mem hf
    unfold deserializeBodyFields
    rw [List.foldl_append, List.foldl_cons]
    refine foldl_deserializeStep_some json _ s hr l₂ _ ?_
    rw [deserializeStep_renderOpt]
    simp only [hg, Bool.false_eq_true, if_false]
    rw [show getNestedValue json f.fullKey =
      getNestedParts (splitDots f.fullKey) (.obj json) from rfl, hr]
    exact svGet_svSet_same _ _ _

theorem incompKeys_iff (a b : String) :
    incompKeys a b = true ↔
      ¬(splitDots a <+: splitDots b) ∧ ¬(splitDots b <+: splitDots a) := by
  unfold incompKeys
  rw [Bool.and_eq_true, Bool.not_eq_true', Bool.not_eq_true']
  constructor
  · rintro ⟨h1, h2⟩
    refine ⟨fun hp => ?_, fun hp => ?_⟩
    · have ht := List.isPrefixOf_iff_prefix.mpr hp
      rw [h1] at ht
      simp at ht
    · have ht := List.isPrefixOf_iff_prefix.mpr hp
      rw [h2] at ht
      simp at ht
  · rintro ⟨h1, h2⟩
    refine ⟨?_, ?_⟩
    · cases hb : (splitDots a).isPrefixOf (splitDots b)
      · rfl
      · exact absurd (List.isPrefixOf_iff_prefix.mp hb) h1
    · cases hb : (splitDots b).isPrefixOf (splitDots a)
      · rfl
      · exact absurd (List.isPrefixOf_iff_prefix.mp hb) h2

theorem pairwiseIncomp_extract (y : String) :
    ∀ (xs zs : List String), pairwiseIncomp (xs ++ y :: zs) = true →
    (∀ x ∈ xs, incompKeys x y = true) ∧ (∀ z ∈ zs, incompKeys y z = true) := by
  intro xs
  induction xs with
  | nil =>
    intro zs h
    simp only [List.nil_append, pairwiseIncomp, Bool.and_eq_true, List.all_eq_true] at h
    exact ⟨by simp, fun z hz => h.1 z hz⟩
  | cons x xs ih =>
    intro zs h
    simp only [List.cons_append, pairwiseIncomp, Bool.and_eq_true, List.all_eq_true] at h
    obtain ⟨hxs, hzs⟩ := ih zs h.2
    refine ⟨?_, hzs⟩
    intro x' hx'
    rcases List.mem_cons.mp hx' with rfl | hmem
    · exact h.1 y (by simp)
    · exact hxs x' hmem

theorem wf_incomp (fields l₁ l₂ : List BodyFieldDef) (f : BodyFieldDef)
    (heq : fields = l₁ ++ f :: l₂) (hg : f.isGroupHeader = false)
    (hwf : wellFormedFields fields = true) :
    ∀ g ∈ l₁ ++ l₂, g.isGroupHeader = false →
      ¬(splitDots g.fullKey <+: splitDots f.fullKey)
      ∧ ¬(splitDots f.fullKey <+: splitDots g.fullKey) := by
  subst heq
  unfold wellFormedFields at hwf
  rw [List.filter_append, List.filter_cons] at hwf
  simp only [hg, Bool.not_false, if_true] at hwf
  rw [List.map_append, List.map_cons] at hwf
  have hext := pairwiseIncomp_extract f.fullKey _ _ hwf
  intro g hgm hgg
  rcases List.mem_append.mp hgm with hgl | hgl
  · have hkey : g.fullKey ∈ (l₁.filter (fun f => !f.isGroupHeader)).map (fun f => f.fullKey) :=
      List.mem_map.mpr ⟨g, List.mem_filter.mpr ⟨hgl, by simp [hgg]⟩, rfl⟩
    exact (incompKeys_iff _ _).mp (hext.1 _ hkey)
  · have hkey : g.fullKey ∈ (l₂.filter (fun f => !f.isGroupHeader)).map (fun f => f.fullKey) :=
      List.mem_map.mpr ⟨g, List.mem_filter.mpr ⟨hgl, by simp [hgg]⟩, rfl⟩
    have h := (incompKeys_iff _ _).mp (hext.2 _ hkey)
    exact ⟨h.2, h.1⟩

/-- One full serialize-then-deserialize round-trip of a flat value map. -/
def rtValues (fields : List BodyFieldDef) (values : List (String × String)) :
    List (String × String) :=
  deserializeBodyFields fields (serializeObj fields values [])

/-- C1: on a well-formed descriptor list, the round-trip value at every
non-group field key is exactly the rendering of its coerced value; hence
flattenable values (those whose typed value prints back to the original
string) are reproduced verbatim, and a coerce-failing numeric falls back to
its raw string and is unchanged by a second round-trip. -/
theorem roundtrip_spec (fields : List BodyFieldDef) (values : List (String × String))
    (f : BodyFieldDef) (hwf : wellFormedFields fields = true) (hf : f ∈ fields)
    (hg : f.isGroupHeader = false) :
    svGet (rtValues fields values) f.fullKey
        = renderOpt (coerceValue ((svGet values f.fullKey).getD "") f.type)
    ∧ (flattenable ((svGet values f.fullKey).getD "") f.type →
        svGet (rtValues fields values) f.fullKey = some ((svGet values f.fullKey).getD ""))
    ∧ ((baseTypeOf f.type = "number" ∨ baseTypeOf f.type = "integer") →
        (svGet values f.fullKey).getD "" ≠ "" →
        (svGet values f.fullKey).getD "" ≠ "null" →
        jsNumParse ((svGet values f.fullKey).getD "") = none →
        coerceValue ((svGet values f.fullKey).getD "") f.type
            = some (.str ((svGet values f.fullKey).getD ""))
        ∧ svGet (rtValues fields values) f.fullKey = some ((svGet values f.fullKey).getD "")
        ∧ svGet (rtValues fields (rtValues fields values)) f.fullKey
            = some ((svGet values f.fullKey).getD "")) := by
  have key : ∀ vals : List (String × String),
      svGet (rtValues fields vals) f.fullKey
        = renderOpt (coerceValue ((svGet vals f.fullKey).getD "") f.type) := by
    intro vals
    obtain ⟨l₁, l₂, heq⟩ := List.append_of_mem hf
    have hincomp := wf_incomp fields l₁ l₂ f heq hg hwf
    have hser := serializeObj_get vals [] l₁ l₂ f hg rfl hincomp
    unfold rtValues
    rw [heq, deserialize_lookup _ _ f (by rw [← heq]; exact hf) hg, hser]
  refine ⟨key values, fun hflat => ?_, fun hnum hr1 hr2 hparse => ?_⟩
  · rw [key values]
    exact hflat
  · have hco : coerceValue ((svGet values f.fullKey).getD "") f.type
        = some (.str ((svGet values f.fullKey).getD "")) := by
      rw [coerceValue_cases.2.2.1 _ f.type hr1 hr2 hnum, hparse]
    have hrt : svGet (rtValues fields values) f.fullKey
        = some ((svGet values f.fullKey).getD "") := by
      rw [key values, hco]
      rfl
    refine ⟨hco, hrt, ?_⟩
    rw [key (rtValues fields values), hrt]
    simp only [Option.getD_some]
    rw [hco]
    rfl

/-- C1 witness: a coerce-failing numeric (`"abc"` as a `number` field)
survives the round-trip as its raw string. -/
theorem roundtrip_spec_witness :
    svGet (rtValues
        [{ label := "a", fullKey := "a", type := "number", required := false,
           isGroupHeader := false }]
        [("a", "abc")]) "a" = some "abc" := by
  have h := (roundtrip_spec
    [{ label := "a", fullKey := "a", type := "number", required := false,
       isGroupHeader := false }]
    [("a", "abc")]
    { label := "a", fullKey := "a", type := "number", required := false,
      isGroupHeader := false }
    (by decide) (List.Mem.head _) rfl).2.2
    (Or.inl rfl) (by decide) (by decide) (by decide)
  exact h.2.1

end Openapicmd
